import Mathlib

set_option autoImplicit false

namespace FDC

/-- A filesystem path, as a list of components. -/
abbrev Path := List String

/-- File contents as a list of bytes. -/
abbrev Bytes := List Nat

/-- A filesystem tree entry. `dir none` models a directory whose listing
fails with an I/O error; `file none` models a regular file whose read fails;
`other` models an entry for which both `is_dir()` and `is_file()` return
false (sockets, devices, broken links). -/
inductive FSEntry where
  | dir : Option (List (String × FSEntry)) → FSEntry
  | file : Option Bytes → FSEntry
  | other : FSEntry

/-- The `Hash` struct of `main.rs`: a 32-byte SHA-256 digest. -/
structure Hash where
  hash : Bytes
deriving DecidableEq

/-- The `FileInfo` struct of `main.rs`: all paths sharing one digest, plus
the shared byte size. -/
structure FileInfo where
  paths : List Path
  size : Nat
deriving DecidableEq

/-- `FileInfo::new`. -/
def FileInfo.new (p : Path) (size : Nat) : FileInfo := ⟨[p], size⟩

/-- `FileInfo::add_path`. -/
def FileInfo.add_path (fi : FileInfo) (p : Path) : FileInfo :=
  { fi with paths := fi.paths ++ [p] }

/-- The `HashMap<Hash, FileInfo>`, modelled as an association list kept in
insertion order. -/
abbrev FileMap := List (Hash × FileInfo)

/-- `HashMap::contains_key`. -/
def containsKeyFM (m : FileMap) (k : Hash) : Bool :=
  m.any (fun kv => kv.1 = k)

/-- `HashMap::get` / `get_mut` lookup. -/
def lookupFM : FileMap → Hash → Option FileInfo
  | [], _ => none
  | kv :: rest, k => if kv.1 = k then some kv.2 else lookupFM rest k

/-- Mutation through `get_mut`: apply `f` to the value at key `k`. -/
def updateFM : FileMap → Hash → (FileInfo → FileInfo) → FileMap
  | [], _, _ => []
  | kv :: rest, k, f =>
      if kv.1 = k then (kv.1, f kv.2) :: rest else kv :: updateFM rest k f

/-- `HashMap::insert` of a fresh key (appended, so iteration is in insertion
order). -/
def insertFM (m : FileMap) (k : Hash) (v : FileInfo) : FileMap :=
  m ++ [(k, v)]

/-- Errors a run can produce. `fsErr p` is an I/O error reading the
directory or file at `p`; `panicked` models the `unwrap` panic in
`scan_rec`; `consoleErr` an stdin/stdout I/O error in fix mode;
`noMoreInput` marks exhaustion of the modelled input stream (the real
program would re-prompt forever at EOF). -/
inductive Err where
  | fsErr : Path → Err
  | panicked : Err
  | consoleErr : Err
  | noMoreInput : Err
deriving DecidableEq

/-- `hash_file`: read the file's bytes, digest them, return digest and
length. The SHA-256 digest function itself lives in the `sha_256` crate and
is abstracted as the parameter `h`. -/
def hash_file (h : Bytes → Hash) (c : Bytes) : Hash × Nat :=
  (h c, c.length)

mutual

/-- The loop body of `scan_rec` over the entries returned by `read_dir`:
recurse into directories, hash and index regular files, skip everything
else; any error aborts. -/
def scanRec (h : Bytes → Hash) (entries : List (String × FSEntry))
    (path : Path) (m : FileMap) : Except Err FileMap :=
  match entries with
  | [] => .ok m
  | (name, e) :: rest =>
      match scanOne h e (path ++ [name]) m with
      | .error er => .error er
      | .ok m' => scanRec h rest path m'

/-- `scan_rec`'s treatment of a single directory entry at path `p`. -/
def scanOne (h : Bytes → Hash) (e : FSEntry) (p : Path) (m : FileMap) :
    Except Err FileMap :=
  match e with
  | .dir none => .error (.fsErr p)
  | .dir (some es) => scanRec h es p m
  | .file none => .error (.fsErr p)
  | .file (some c) =>
      let hs := hash_file h c
      if containsKeyFM m hs.1 then
        match lookupFM m hs.1 with
        | some _ => .ok (updateFM m hs.1 (fun fi => fi.add_path p))
        | none => .error .panicked
      else .ok (insertFM m hs.1 (FileInfo.new p hs.2))
  | .other => .ok m

end

/-- `scan_on_directory`: `read_dir` the root and scan, starting from the
empty map. -/
def scan_on_directory (h : Bytes → Hash) (root : Path) (t : FSEntry) :
    Except Err FileMap :=
  match t with
  | .dir (some es) => scanRec h es root []
  | _ => .error (.fsErr root)

mutual

/-- Specification-level traversal: the regular files below a list of
directory entries, in traversal order, or the first I/O error met. -/
def filesRec (entries : List (String × FSEntry)) (path : Path) :
    Except Err (List (Path × Bytes)) :=
  match entries with
  | [] => .ok []
  | (name, e) :: rest =>
      match filesOne e (path ++ [name]) with
      | .error er => .error er
      | .ok fs =>
          match filesRec rest path with
          | .error er => .error er
          | .ok fss => .ok (fs ++ fss)

/-- Specification-level traversal of a single entry. -/
def filesOne (e : FSEntry) (p : Path) : Except Err (List (Path × Bytes)) :=
  match e with
  | .dir none => .error (.fsErr p)
  | .dir (some es) => filesRec es p
  | .file none => .error (.fsErr p)
  | .file (some c) => .ok [(p, c)]
  | .other => .ok []

end

/-- Specification-level traversal from the root. -/
def files_on_directory (root : Path) (t : FSEntry) :
    Except Err (List (Path × Bytes)) :=
  match t with
  | .dir (some es) => filesRec es root
  | _ => .error (.fsErr root)

/-- The body of `scan_rec`'s file branch as a total map transformer: hash
the content, then append the path to the existing record or create a new
one. -/
def indexStep (h : Bytes → Hash) (m : FileMap) (pc : Path × Bytes) : FileMap :=
  let hs := hash_file h pc.2
  if containsKeyFM m hs.1 then updateFM m hs.1 (fun fi => fi.add_path pc.1)
  else insertFM m hs.1 (FileInfo.new pc.1 hs.2)

/-- Indexing a whole file sequence. -/
def indexFiles (h : Bytes → Hash) (m : FileMap) (fs : List (Path × Bytes)) :
    FileMap :=
  fs.foldl (indexStep h) m

/-- One console interaction in fix mode: the prompt flush fails, the line
read fails, or a line of text is read. -/
inductive ConsoleEvent where
  | flushErr : ConsoleEvent
  | readErr : ConsoleEvent
  | line : List Char → ConsoleEvent
deriving DecidableEq

/-- A line printed to stdout. -/
inductive OutLine where
  | header : List Char → Nat → OutLine
  | pathLine : Nat → Path → OutLine
  | promptLine : OutLine
  | invalidInput : OutLine
  | invalidIndex : OutLine
  | deleting : Path → OutLine
deriving DecidableEq

/-- ASCII whitespace, as `str::trim` strips it. -/
def isWsChar (ch : Char) : Bool :=
  ch = ' ' || ch = '\t' || ch = '\n' || ch = '\r'

/-- `str::trim`. -/
def trimChars (s : List Char) : List Char :=
  ((s.dropWhile isWsChar).reverse.dropWhile isWsChar).reverse

/-- ASCII decimal digit test. -/
def isDigitChar (ch : Char) : Bool := '0' ≤ ch && ch ≤ '9'

/-- Numeric value of a decimal digit character. -/
def digitVal (ch : Char) : Nat := ch.toNat - '0'.toNat

/-- Value of a digit string. -/
def digitsToNat (s : List Char) : Nat :=
  s.foldl (fun acc ch => acc * 10 + digitVal ch) 0

/-- `str::parse::<usize>`: an optional leading plus sign, then one or more
decimal digits, rejecting values that overflow a 64-bit usize. -/
def parseUsize (s : List Char) : Option Nat :=
  let t := match s with
    | '+' :: rest => rest
    | _ => s
  if !t.isEmpty && t.all isDigitChar then
    let v := digitsToNat t
    if v < 2 ^ 64 then some v else none
  else none

/-- The `loop` of `fix_duplicates` prompting for an index: prints the
prompt, flushes, reads a line; a console I/O failure aborts, `0` selects
keep-all (`none`), a value in `[1, n]` selects that path, and anything
else reports and retries. Returns the selection, the lines printed, and
the unconsumed console events. -/
def promptLoop (n : Nat) :
    List ConsoleEvent → Except Err (Option Nat × List OutLine × List ConsoleEvent)
  | [] => .error .noMoreInput
  | .flushErr :: _ => .error .consoleErr
  | .readErr :: _ => .error .consoleErr
  | .line s :: rest =>
      match parseUsize (trimChars s) with
      | some v =>
          if v ≤ n then
            .ok (if v = 0 then none else some (v - 1), [.promptLine], rest)
          else
            match promptLoop n rest with
            | .error er => .error er
            | .ok ro => .ok (ro.1, .promptLine :: .invalidIndex :: ro.2.1, ro.2.2)
      | none =>
          match promptLoop n rest with
          | .error er => .error er
          | .ok ro => .ok (ro.1, .promptLine :: .invalidInput :: ro.2.1, ro.2.2)

/-- Result of the deletion pass: lines printed, paths whose removal failed
(reported to stderr), and all paths on which removal was attempted. -/
structure DelResult where
  out : List OutLine
  errs : List Path
  attempts : List Path
deriving DecidableEq

/-- The deletion `for` loop of `fix_duplicates`: every path whose position
differs from `keep` is printed and removal is attempted; a removal failure
(`dok p = false`) is reported and the loop continues. `i` is the position
of the first element of `paths`. -/
def deleteFrom (dok : Path → Bool) (paths : List Path) (keep i : Nat) :
    DelResult :=
  match paths with
  | [] => ⟨[], [], []⟩
  | p :: rest =>
      let r := deleteFrom dok rest keep (i + 1)
      if i = keep then r
      else ⟨.deleting p :: r.out, if dok p then r.errs else p :: r.errs,
            p :: r.attempts⟩

/-- Result of processing one or more duplicate sets in fix mode. -/
structure RunOut where
  out : List OutLine
  errs : List Path
  attempts : List Path
  events : List ConsoleEvent
deriving DecidableEq

/-- `fix_duplicates`: run the prompt loop; on `Some(index)` delete all
paths but the one at `index`; on `None` (input `0`) do nothing. -/
def fix_duplicates (dok : Path → Bool) (v : FileInfo)
    (events : List ConsoleEvent) : Except Err RunOut :=
  match promptLoop v.paths.length events with
  | .error er => .error er
  | .ok (none, out, rest) => .ok ⟨out, [], [], rest⟩
  | .ok (some idx, out, rest) =>
      let d := deleteFrom dok v.paths idx 0
      .ok ⟨out ++ d.out, d.errs, d.attempts, rest⟩

/-- One lowercase hexadecimal digit. -/
def hexDigit (n : Nat) : Char :=
  if n < 10 then Char.ofNat (Char.toNat '0' + n)
  else Char.ofNat (Char.toNat 'a' + (n - 10))

/-- `{:02x}` on a byte. -/
def byteHex (b : Nat) : List Char := [hexDigit (b / 16), hexDigit (b % 16)]

/-- `Hash`'s `Display` impl: each of the 32 bytes as two lowercase hex
digits. -/
def hashHex (k : Hash) : List Char := (k.hash.map byteHex).flatten

/-- The path enumeration loop of `handle_duplicates`: path at position
`i` is printed with number `i + 1`. -/
def enumPaths (i : Nat) : List Path → List OutLine
  | [] => []
  | p :: rest => .pathLine (i + 1) p :: enumPaths (i + 1) rest

/-- The lines `handle_duplicates` prints for one duplicate set: the digest
and shared size header, then the numbered paths in insertion order. -/
def reportRecord (k : Hash) (v : FileInfo) : List OutLine :=
  .header (hashHex k) v.size :: enumPaths 0 v.paths

/-- The iteration of `handle_duplicates` over the map entries: sets with
more than one path are printed and, in fix mode, resolved; console errors
abort. -/
def processSets (dok : Path → Bool) (doFix : Bool) :
    List (Hash × FileInfo) → List ConsoleEvent → Except Err RunOut
  | [], events => .ok ⟨[], [], [], events⟩
  | (k, v) :: rest, events =>
      if v.paths.length > 1 then
        if doFix then
          match fix_duplicates dok v events with
          | .error er => .error er
          | .ok fr =>
              match processSets dok doFix rest fr.events with
              | .error er => .error er
              | .ok r => .ok ⟨reportRecord k v ++ fr.out ++ r.out,
                              fr.errs ++ r.errs, fr.attempts ++ r.attempts,
                              r.events⟩
        else
          match processSets dok doFix rest events with
          | .error er => .error er
          | .ok r => .ok ⟨reportRecord k v ++ r.out, r.errs, r.attempts,
                          r.events⟩
      else processSets dok doFix rest events

/-- `handle_duplicates`. -/
def handle_duplicates (dok : Path → Bool) (m : FileMap) (doFix : Bool)
    (events : List ConsoleEvent) : Except Err RunOut :=
  processSets dok doFix m events

/-- `run`: scan, then handle the duplicates found. -/
def run (h : Bytes → Hash) (dok : Path → Bool) (root : Path) (t : FSEntry)
    (doFix : Bool) (events : List ConsoleEvent) : Except Err RunOut :=
  match scan_on_directory h root t with
  | .error er => .error er
  | .ok m => handle_duplicates dok m doFix events

/-- `main`: exit code (`0` success, `1` failure) and the error written to
stderr, if any. -/
def main (h : Bytes → Hash) (dok : Path → Bool) (root : Path) (t : FSEntry)
    (doFix : Bool) (events : List ConsoleEvent) : Nat × Option Err :=
  match run h dok root t doFix events with
  | .ok _ => (0, none)
  | .error er => (1, some er)

/-- The sixteen lowercase hexadecimal digit characters. -/
def lowHexChars : List Char := "0123456789abcdef".toList

/-- The list of paths stored under key `k`, empty when the key is absent. -/
def lookupPaths (m : FileMap) (k : Hash) : List Path :=
  match lookupFM m k with
  | some fi => fi.paths
  | none => []

/-- Test fixture: an injective digest function. -/
def sampleHash : Bytes → Hash := fun c => ⟨c⟩

/-- Test fixture: a directory with two identical files and one distinct
file. -/
def sampleTree : FSEntry :=
  .dir (some [("a", .file (some [104, 105])), ("b", .file (some [104, 105])),
              ("c", .file (some [119]))])

/-- The file sequence of `sampleTree` under root `["r"]`. -/
def sampleFiles : List (Path × Bytes) :=
  [(["r", "a"], [104, 105]), (["r", "b"], [104, 105]), (["r", "c"], [119])]

/-- The map `sampleTree` scans to. -/
def sampleMap : FileMap :=
  [(⟨[104, 105]⟩, ⟨[["r", "a"], ["r", "b"]], 2⟩), (⟨[119]⟩, ⟨[["r", "c"]], 1⟩)]

/-- Test fixture: a duplicate set with two paths. -/
def sampleInfo : FileInfo := ⟨[["r", "a"], ["r", "b"]], 2⟩

/-- Test fixture: a directory containing an unreadable file. -/
def badTree : FSEntry := .dir (some [("x", .file none)])

/-- Test fixture: a 32-byte digest. -/
def sampleDigest : Hash := ⟨List.replicate 32 171⟩

theorem containsKeyFM_iff (m : FileMap) (k : Hash) :
    containsKeyFM m k = true ↔ ∃ fi, lookupFM m k = some fi := by
  induction m with
  | nil => simp [containsKeyFM, lookupFM]
  | cons kv rest ih =>
      by_cases hk : kv.1 = k
      · simp [containsKeyFM, lookupFM, hk]
      · simp only [containsKeyFM, List.any_cons] at ih ⊢
        simp [lookupFM, hk, ih]

theorem lookupFM_updateFM (m : FileMap) (k0 k : Hash)
    (f : FileInfo → FileInfo) :
    lookupFM (updateFM m k0 f) k =
      if k0 = k then Option.map f (lookupFM m k) else lookupFM m k := by
  induction m with
  | nil => simp [updateFM, lookupFM]
  | cons kv rest ih =>
      by_cases h0 : kv.1 = k0 <;> by_cases hk : kv.1 = k
      · subst h0; subst hk
        simp [updateFM, lookupFM]
      · subst h0
        have hne : ¬kv.1 = k := hk
        simp only [updateFM, lookupFM, if_pos rfl, if_neg hne]
      · subst hk
        have hne : ¬k0 = kv.1 := fun he => h0 he.symm
        simp [updateFM, lookupFM, h0, hne]
      · simp [updateFM, lookupFM, h0, hk, ih]

theorem lookupFM_append (m m' : FileMap) (k : Hash) :
    lookupFM (m ++ m') k =
      match lookupFM m k with
      | some fi => some fi
      | none => lookupFM m' k := by
  induction m with
  | nil => simp [lookupFM]
  | cons kv rest ih =>
      by_cases hk : kv.1 = k <;> simp [lookupFM, hk, ih]

theorem lookupFM_indexStep (h : Bytes → Hash) (m : FileMap) (p : Path)
    (c : Bytes) (k : Hash) :
    lookupFM (indexStep h m (p, c)) k =
      if h c = k then
        match lookupFM m (h c) with
        | some fi => some (fi.add_path p)
        | none => some (FileInfo.new p c.length)
      else lookupFM m k := by
  by_cases hc : containsKeyFM m (h c)
  · obtain ⟨fi, hfi⟩ := (containsKeyFM_iff m (h c)).mp hc
    by_cases hk : h c = k
    · subst hk
      simp [indexStep, hash_file, hc, lookupFM_updateFM, hfi]
    · simp [indexStep, hash_file, hc, lookupFM_updateFM, hk]
  · have hnone : lookupFM m (h c) = none := by
      cases hl : lookupFM m (h c) with
      | none => rfl
      | some fi => exact absurd ((containsKeyFM_iff m (h c)).mpr ⟨fi, hl⟩) hc
    by_cases hk : h c = k
    · subst hk
      simp [indexStep, hash_file, hc, insertFM, lookupFM_append, hnone,
        lookupFM]
    · simp [indexStep, hash_file, hc, insertFM, lookupFM_append, hk]
      cases hl : lookupFM m k with
      | none => simp [lookupFM, hk]
      | some fi => simp

theorem lookupPaths_indexStep (h : Bytes → Hash) (m : FileMap) (p : Path)
    (c : Bytes) (k : Hash) :
    lookupPaths (indexStep h m (p, c)) k =
      lookupPaths m k ++ if h c = k then [p] else [] := by
  by_cases hk : h c = k
  · subst hk
    simp only [lookupPaths, lookupFM_indexStep, if_pos rfl]
    cases lookupFM m (h c) <;> simp [FileInfo.add_path, FileInfo.new]
  · simp [lookupPaths, lookupFM_indexStep, hk]

theorem indexFiles_append (h : Bytes → Hash) (m : FileMap)
    (fs fss : List (Path × Bytes)) :
    indexFiles h m (fs ++ fss) = indexFiles h (indexFiles h m fs) fss := by
  simp [indexFiles, List.foldl_append]

theorem lookupPaths_indexFiles (h : Bytes → Hash)
    (fs : List (Path × Bytes)) (m : FileMap) (k : Hash) :
    lookupPaths (indexFiles h m fs) k =
      lookupPaths m k ++ (fs.filter (fun pc => h pc.2 = k)).map Prod.fst := by
  induction fs generalizing m with
  | nil => simp [indexFiles]
  | cons pc rest ih =>
      obtain ⟨p, c⟩ := pc
      have hstep : indexFiles h m ((p, c) :: rest) =
          indexFiles h (indexStep h m (p, c)) rest := by
        simp [indexFiles]
      rw [hstep, ih, lookupPaths_indexStep]
      by_cases hk : h c = k <;> simp [hk]

theorem lookupFM_indexFiles_mono (h : Bytes → Hash)
    (fs : List (Path × Bytes)) (m : FileMap) (k : Hash) (fi : FileInfo)
    (hfi : lookupFM m k = some fi) :
    ∃ more, lookupFM (indexFiles h m fs) k =
      some ⟨fi.paths ++ more, fi.size⟩ := by
  induction fs generalizing m fi with
  | nil =>
      refine ⟨[], ?_⟩
      simpa [indexFiles] using hfi
  | cons pc rest ih =>
      obtain ⟨p, c⟩ := pc
      have hstep : indexFiles h m ((p, c) :: rest) =
          indexFiles h (indexStep h m (p, c)) rest := by
        simp [indexFiles]
      rw [hstep]
      by_cases hk : h c = k
      · have hl : lookupFM (indexStep h m (p, c)) k =
            some ⟨fi.paths ++ [p], fi.size⟩ := by
          rw [lookupFM_indexStep, if_pos hk, hk, hfi]
          rfl
        obtain ⟨more, hm⟩ := ih (indexStep h m (p, c)) ⟨fi.paths ++ [p], fi.size⟩ hl
        exact ⟨[p] ++ more, by simpa [List.append_assoc] using hm⟩
      · have hl : lookupFM (indexStep h m (p, c)) k = some fi := by
          rw [lookupFM_indexStep, if_neg hk]; exact hfi
        exact ih (indexStep h m (p, c)) fi hl

theorem scanOne_eq_filesOne (h : Bytes → Hash) (e : FSEntry) (p : Path)
    (m : FileMap) :
    scanOne h e p m = Except.map (indexFiles h m) (filesOne e p) := by
  refine scanOne.induct h
    (fun es p m => scanRec h es p m = Except.map (indexFiles h m) (filesRec es p))
    (fun e p m => scanOne h e p m = Except.map (indexFiles h m) (filesOne e p))
    ?_ ?_ ?_ ?_ ?_ ?_ ?_ ?_ ?_ ?_ e p m
  · intro p m
    simp [scanOne, filesOne, Except.map]
  · intro p m es ih
    simpa [scanOne, filesOne] using ih
  · intro p m
    simp [scanOne, filesOne, Except.map]
  · intro p m c hs hcont fi hfi
    have hc1 : containsKeyFM m (h c) = true := hcont
    have hf1 : lookupFM m (h c) = some fi := hfi
    simp [scanOne, filesOne, Except.map, hash_file, hc1, hf1, indexFiles,
      indexStep]
  · intro p m c hs hcont hnone
    have hc1 : containsKeyFM m (h c) = true := hcont
    have hn1 : lookupFM m (h c) = none := hnone
    obtain ⟨fi, hfi⟩ := (containsKeyFM_iff m (h c)).mp hc1
    rw [hfi] at hn1
    exact absurd hn1 (by simp)
  · intro p m c hs hcont
    have hc1 : ¬containsKeyFM m (h c) = true := hcont
    simp [scanOne, filesOne, Except.map, hc1, indexFiles, indexStep,
      hash_file]
  · intro p m
    simp [scanOne, filesOne, Except.map, indexFiles]
  · intro path m
    simp [scanRec, filesRec, Except.map, indexFiles]
  · intro path m name e rest er hso ih
    rw [hso] at ih
    have hfo : filesOne e (path ++ [name]) = .error er := by
      cases hf : filesOne e (path ++ [name]) with
      | ok fs => rw [hf] at ih; exact absurd ih (by simp [Except.map])
      | error er' =>
          rw [hf] at ih
          simp [Except.map] at ih
          rw [ih]
    simp [scanRec, filesRec, hso, hfo, Except.map]
  · intro path m name e rest m' hso ih1 ih2
    rw [hso] at ih1
    cases hf : filesOne e (path ++ [name]) with
    | error er =>
        rw [hf] at ih1
        exact absurd ih1.symm (by simp [Except.map])
    | ok fs =>
        rw [hf] at ih1
        simp only [Except.map] at ih1
        have hm' : m' = indexFiles h m fs := by
          cases ih1; rfl
        rw [scanRec, filesRec]
        simp only [hso, hf]
        rw [ih2, hm']
        cases hfr : filesRec rest path with
        | error er => simp [Except.map]
        | ok fss => simp [Except.map, indexFiles_append]

theorem scan_eq_files (h : Bytes → Hash) (root : Path) (t : FSEntry) :
    scan_on_directory h root t =
      Except.map (indexFiles h []) (files_on_directory root t) := by
  cases t with
  | dir o =>
      cases o with
      | none => simp [scan_on_directory, files_on_directory, Except.map]
      | some es =>
          simp only [scan_on_directory, files_on_directory]
          have : ∀ es p m, scanRec h es p m =
              Except.map (indexFiles h m) (filesRec es p) := by
            intro es p m
            induction es generalizing m with
            | nil => simp [scanRec, filesRec, Except.map, indexFiles]
            | cons e rest ih =>
                obtain ⟨name, e⟩ := e
                rw [scanRec, filesRec, scanOne_eq_filesOne]
                cases hf : filesOne e (p ++ [name]) with
                | error er => simp [Except.map]
                | ok fs =>
                    simp only [Except.map]
                    rw [ih]
                    cases hfr : filesRec rest p with
                    | error er => simp [Except.map]
                    | ok fss => simp [Except.map, indexFiles_append]
          exact this es root []
  | file o => simp [scan_on_directory, files_on_directory, Except.map]
  | other => simp [scan_on_directory, files_on_directory, Except.map]

theorem filesOne_error_fsErr (e : FSEntry) (p : Path) :
    ∀ er, filesOne e p = .error er → ∃ q, er = Err.fsErr q := by
  refine filesOne.induct
    (fun es p => ∀ er, filesRec es p = .error er → ∃ q, er = Err.fsErr q)
    (fun e p => ∀ er, filesOne e p = .error er → ∃ q, er = Err.fsErr q)
    ?_ ?_ ?_ ?_ ?_ ?_ ?_ ?_ ?_ e p
  · intro p er he
    simp only [filesOne, Except.error.injEq] at he
    exact ⟨p, he.symm⟩
  · intro p es ih er he
    simp only [filesOne] at he
    exact ih er he
  · intro p er he
    simp only [filesOne, Except.error.injEq] at he
    exact ⟨p, he.symm⟩
  · intro p c er he
    simp [filesOne] at he
  · intro p er he
    simp [filesOne] at he
  · intro path er he
    simp [filesRec] at he
  · intro path name e rest er0 hfo ih er he
    simp only [filesRec, hfo] at he
    obtain ⟨q, hq⟩ := ih er0 hfo
    cases he
    exact ⟨q, hq⟩
  · intro path name e rest fss hfo er0 hfr ih1 ih2 er he
    simp only [filesRec, hfo, hfr] at he
    obtain ⟨q, hq⟩ := ih2 er0 hfr
    cases he
    exact ⟨q, hq⟩
  · intro path name e rest fss hfo fss' hfr ih1 ih2 er he
    simp [filesRec, hfo, hfr] at he

theorem filesRec_error_fsErr (es : List (String × FSEntry)) (p : Path) :
    ∀ er, filesRec es p = .error er → ∃ q, er = Err.fsErr q := by
  induction es with
  | nil => intro er he; simp [filesRec] at he
  | cons e rest ih =>
      obtain ⟨name, e⟩ := e
      intro er he
      cases hfo : filesOne e (p ++ [name]) with
      | error er0 =>
          simp only [filesRec, hfo, Except.error.injEq] at he
          exact he ▸ filesOne_error_fsErr e (p ++ [name]) er0 hfo
      | ok fs =>
          cases hfr : filesRec rest p with
          | error er0 =>
              simp only [filesRec, hfo, hfr, Except.error.injEq] at he
              exact he ▸ ih er0 hfr
          | ok fss => simp [filesRec, hfo, hfr] at he

theorem files_on_directory_error_fsErr (root : Path) (t : FSEntry) :
    ∀ er, files_on_directory root t = .error er → ∃ q, er = Err.fsErr q := by
  intro er he
  cases t with
  | dir o =>
      cases o with
      | none =>
          simp only [files_on_directory, Except.error.injEq] at he
          exact ⟨root, he.symm⟩
      | some es => exact filesRec_error_fsErr es root er he
  | file o =>
      simp only [files_on_directory, Except.error.injEq] at he
      exact ⟨root, he.symm⟩
  | other =>
      simp only [files_on_directory, Except.error.injEq] at he
      exact ⟨root, he.symm⟩

theorem mem_lookupPaths (m : FileMap) (k : Hash) (p : Path)
    (hp : p ∈ lookupPaths m k) :
    ∃ fi, lookupFM m k = some fi ∧ p ∈ fi.paths := by
  unfold lookupPaths at hp
  cases hl : lookupFM m k with
  | none => rw [hl] at hp; simp at hp
  | some fi => rw [hl] at hp; exact ⟨fi, rfl, hp⟩

theorem deleteFrom_attempts (dok : Path → Bool) (paths : List Path)
    (keep i : Nat) :
    (deleteFrom dok paths keep i).attempts =
      if keep < i then paths else paths.eraseIdx (keep - i) := by
  induction paths generalizing i with
  | nil => simp [deleteFrom]
  | cons p rest ih =>
      by_cases hik : i = keep
      · subst hik
        have h1 : ¬i < i := Nat.lt_irrefl i
        have h2 : i < i + 1 := Nat.lt_succ_self i
        simp [deleteFrom, ih, h1, h2, Nat.sub_self]
      · by_cases hlt : keep < i
        · have h2 : keep < i + 1 := Nat.lt_succ_of_lt hlt
          simp [deleteFrom, hik, ih, hlt, h2]
        · have hikeep : i < keep := by omega
          have h2 : ¬keep < i + 1 := by omega
          have h3 : keep - i = (keep - (i + 1)) + 1 := by omega
          simp [deleteFrom, hik, ih, hlt, h2, h3]

theorem deleteFrom_errs (dok : Path → Bool) (paths : List Path)
    (keep i : Nat) :
    (deleteFrom dok paths keep i).errs =
      (deleteFrom dok paths keep i).attempts.filter (fun p => !dok p) := by
  induction paths generalizing i with
  | nil => simp [deleteFrom]
  | cons p rest ih =>
      by_cases hik : i = keep
      · simp [deleteFrom, hik, ih]
      · cases hdp : dok p <;>
          simp [deleteFrom, hik, ih, List.filter_cons, hdp]

theorem promptLoop_parse_fail (n : Nat) (s : List Char)
    (rest : List ConsoleEvent) (hp : parseUsize (trimChars s) = none) :
    promptLoop n (.line s :: rest) =
      Except.map
        (fun ro => (ro.1, OutLine.promptLine :: OutLine.invalidInput :: ro.2.1,
          ro.2.2))
        (promptLoop n rest) := by
  cases hr : promptLoop n rest with
  | error er => simp [promptLoop, hp, hr, Except.map]
  | ok ro => simp [promptLoop, hp, hr, Except.map]

theorem promptLoop_out_of_range (n : Nat) (s : List Char) (v : Nat)
    (rest : List ConsoleEvent) (hp : parseUsize (trimChars s) = some v)
    (hv : n < v) :
    promptLoop n (.line s :: rest) =
      Except.map
        (fun ro => (ro.1, OutLine.promptLine :: OutLine.invalidIndex :: ro.2.1,
          ro.2.2))
        (promptLoop n rest) := by
  have hnot : ¬v ≤ n := by omega
  cases hr : promptLoop n rest with
  | error er => simp [promptLoop, hp, hr, hnot, Except.map]
  | ok ro => simp [promptLoop, hp, hr, hnot, Except.map]

theorem promptLoop_zero (n : Nat) (s : List Char)
    (rest : List ConsoleEvent) (hp : parseUsize (trimChars s) = some 0) :
    promptLoop n (.line s :: rest) = .ok (none, [.promptLine], rest) := by
  simp [promptLoop, hp, Nat.zero_le]

theorem promptLoop_keep (n : Nat) (s : List Char) (v : Nat)
    (rest : List ConsoleEvent) (hp : parseUsize (trimChars s) = some v)
    (hv1 : 1 ≤ v) (hvn : v ≤ n) :
    promptLoop n (.line s :: rest) =
      .ok (some (v - 1), [.promptLine], rest) := by
  have hne : ¬v = 0 := by omega
  simp [promptLoop, hp, hvn, hne]

theorem promptLoop_junk (n : Nat) (junk : List (List Char))
    (events : List ConsoleEvent)
    (hjunk : ∀ s ∈ junk, parseUsize (trimChars s) = none) :
    Except.map (fun ro => ro.1)
        (promptLoop n (junk.map ConsoleEvent.line ++ events)) =
      Except.map (fun ro => ro.1) (promptLoop n events) := by
  induction junk with
  | nil => simp
  | cons s js ih =>
      have hs : parseUsize (trimChars s) = none := hjunk s (by simp)
      have ihs := ih (fun s' hs' => hjunk s' (by simp [hs']))
      rw [List.map_cons, List.cons_append,
        promptLoop_parse_fail n s (js.map ConsoleEvent.line ++ events) hs]
      cases hr : promptLoop n (js.map ConsoleEvent.line ++ events) with
      | error er =>
          rw [hr] at ihs
          simpa [Except.map] using ihs
      | ok ro =>
          rw [hr] at ihs
          simpa [Except.map] using ihs

theorem enumPaths_length (i : Nat) (ps : List Path) :
    (enumPaths i ps).length = ps.length := by
  induction ps generalizing i with
  | nil => simp [enumPaths]
  | cons p rest ih => simp [enumPaths, ih]

theorem enumPaths_get (ps : List Path) (i j : Nat) (hj : j < ps.length)
    (hj' : j < (enumPaths i ps).length) :
    (enumPaths i ps).get ⟨j, hj'⟩ =
      .pathLine (i + j + 1) (ps.get ⟨j, hj⟩) := by
  induction ps generalizing i j with
  | nil => simp at hj
  | cons p rest ih =>
      cases j with
      | zero => simp [enumPaths]
      | succ j' =>
          have hj2 : j' < rest.length := by simpa using hj
          have hj2' : j' < (enumPaths (i + 1) rest).length := by
            rw [enumPaths_length]; exact hj2
          have := ih (i + 1) j' hj2 hj2'
          simp only [enumPaths, List.get_cons_succ]
          rw [this]
          congr 1
          omega

theorem hexDigit_mem_lowHexChars : ∀ n, n < 16 → hexDigit n ∈ lowHexChars := by
  decide

theorem hashHex_length (k : Hash) (hk : k.hash.length = 32) :
    (hashHex k).length = 64 := by
  have haux : ∀ l : List Nat, ((l.map byteHex).flatten).length = 2 * l.length := by
    intro l
    induction l with
    | nil => simp
    | cons b rest ih =>
        simp [byteHex, ih]
        omega
  simp [hashHex, haux, hk]

theorem hashHex_mem (k : Hash) (hk : ∀ b ∈ k.hash, b < 256) :
    ∀ ch ∈ hashHex k, ch ∈ lowHexChars := by
  intro ch hch
  simp only [hashHex, List.mem_flatten, List.mem_map] at hch
  obtain ⟨l, ⟨b, hb, rfl⟩, hchl⟩ := hch
  have hb256 : b < 256 := hk b hb
  simp only [byteHex, List.mem_cons, List.not_mem_nil, or_false] at hchl
  rcases hchl with rfl | rfl
  · exact hexDigit_mem_lowHexChars (b / 16) (by omega)
  · exact hexDigit_mem_lowHexChars (b % 16) (by omega)

theorem sampleHash_injective : Function.Injective sampleHash := by
  intro a b hab
  simpa [sampleHash] using hab

/-- C1: in a successful scan, two files with byte-identical content are
stored in the same FileRecord, the one keyed by their common digest; and
when the digest function is injective, two files with differing content
are stored under different digest keys, hence in different FileRecords. -/
theorem C1_content_grouping (h : Bytes → Hash) (root : Path) (t : FSEntry)
    (m : FileMap) (fs : List (Path × Bytes)) (p1 p2 : Path) (c1 c2 : Bytes)
    (hscan : scan_on_directory h root t = .ok m)
    (hfs : files_on_directory root t = .ok fs)
    (h1 : (p1, c1) ∈ fs) (h2 : (p2, c2) ∈ fs) :
    (c1 = c2 →
      ∃ fi, lookupFM m (h c1) = some fi ∧ p1 ∈ fi.paths ∧ p2 ∈ fi.paths) ∧
    (Function.Injective h → c1 ≠ c2 →
      h c1 ≠ h c2 ∧
      ∃ fi1 fi2, lookupFM m (h c1) = some fi1 ∧
        lookupFM m (h c2) = some fi2 ∧ p1 ∈ fi1.paths ∧ p2 ∈ fi2.paths) := by
  have hm : m = indexFiles h [] fs := by
    have hsf := scan_eq_files h root t
    rw [hscan, hfs] at hsf
    simpa [Except.map] using hsf
  subst hm
  have hmem : ∀ (p : Path) (c : Bytes), (p, c) ∈ fs →
      p ∈ lookupPaths (indexFiles h [] fs) (h c) := by
    intro p c hpc
    rw [lookupPaths_indexFiles]
    refine List.mem_append.mpr (Or.inr ?_)
    exact List.mem_map.mpr ⟨(p, c), List.mem_filter.mpr ⟨hpc, by simp⟩, rfl⟩
  constructor
  · intro hc
    subst hc
    obtain ⟨fi, hfi, hma⟩ := mem_lookupPaths _ _ _ (hmem p1 c1 h1)
    obtain ⟨fi', hfi', hmb⟩ := mem_lookupPaths _ _ _ (hmem p2 c1 h2)
    rw [hfi] at hfi'
    obtain rfl : fi = fi' := by simpa using hfi'
    exact ⟨fi, hfi, hma, hmb⟩
  · intro hinj hne
    obtain ⟨fi1, hfi1, hma⟩ := mem_lookupPaths _ _ _ (hmem p1 c1 h1)
    obtain ⟨fi2, hfi2, hmb⟩ := mem_lookupPaths _ _ _ (hmem p2 c2 h2)
    exact ⟨fun he => hne (hinj he), fi1, fi2, hfi1, hfi2, hma, hmb⟩

/-- Witness for C1 on `sampleTree`. -/
theorem C1_content_grouping_witness :
    (∃ fi, lookupFM sampleMap (sampleHash [104, 105]) = some fi ∧
       ["r", "a"] ∈ fi.paths ∧ ["r", "b"] ∈ fi.paths) ∧
    sampleHash [104, 105] ≠ sampleHash [119] ∧
    (∃ fi1 fi2, lookupFM sampleMap (sampleHash [104, 105]) = some fi1 ∧
       lookupFM sampleMap (sampleHash [119]) = some fi2 ∧
       ["r", "a"] ∈ fi1.paths ∧ ["r", "c"] ∈ fi2.paths) :=
  ⟨(C1_content_grouping sampleHash ["r"] sampleTree sampleMap sampleFiles
      ["r", "a"] ["r", "b"] [104, 105] [104, 105] rfl rfl (by decide)
      (by decide)).1 rfl,
   (C1_content_grouping sampleHash ["r"] sampleTree sampleMap sampleFiles
      ["r", "a"] ["r", "c"] [104, 105] [119] rfl rfl (by decide)
      (by decide)).2 sampleHash_injective (by decide)⟩

/-- C2: when the prompt loop resolves to `Keep idx`, deletion is attempted
on exactly the paths at every position other than `idx` (the list
`eraseIdx idx`), never on the path at `idx`; when it resolves to Abstain
(input 0), no deletion is attempted at all. -/
theorem C2_keep_and_abstain (dok : Path → Bool) (v : FileInfo)
    (events : List ConsoleEvent) :
    (∀ idx out rest,
       promptLoop v.paths.length events = .ok (some idx, out, rest) →
       fix_duplicates dok v events =
         .ok ⟨out ++ (deleteFrom dok v.paths idx 0).out,
              (deleteFrom dok v.paths idx 0).errs,
              v.paths.eraseIdx idx, rest⟩) ∧
    (∀ out rest,
       promptLoop v.paths.length events = .ok (none, out, rest) →
       fix_duplicates dok v events = .ok ⟨out, [], [], rest⟩) := by
  constructor
  · intro idx out rest hpl
    have ha : (deleteFrom dok v.paths idx 0).attempts =
        v.paths.eraseIdx idx := by
      rw [deleteFrom_attempts]
      simp
    rw [← ha]
    simp [fix_duplicates, hpl]
  · intro out rest hpl
    simp [fix_duplicates, hpl]

/-- Witness for C2: input "2" keeps the second path and attempts deletion
only on the first; input "0" attempts nothing. -/
theorem C2_keep_and_abstain_witness :
    fix_duplicates (fun _ => true) sampleInfo [ConsoleEvent.line ['2']] =
      .ok ⟨[OutLine.promptLine] ++
             (deleteFrom (fun _ => true) sampleInfo.paths 1 0).out,
           (deleteFrom (fun _ => true) sampleInfo.paths 1 0).errs,
           sampleInfo.paths.eraseIdx 1, []⟩ ∧
    fix_duplicates (fun _ => true) sampleInfo [ConsoleEvent.line ['0']] =
      .ok ⟨[OutLine.promptLine], [], [], []⟩ :=
  ⟨(C2_keep_and_abstain (fun _ => true) sampleInfo
      [ConsoleEvent.line ['2']]).1 1 [OutLine.promptLine] [] rfl,
   (C2_keep_and_abstain (fun _ => true) sampleInfo
      [ConsoleEvent.line ['0']]).2 [OutLine.promptLine] [] rfl⟩

/-- C3: an I/O error during traversal aborts the whole scan with that
error and no map, and main then exits 1 writing the error to stderr; a
successful scan indexes the complete file sequence, and the exit code is 0
exactly when the whole run succeeds. -/
theorem C3_fail_fast_and_exit (h : Bytes → Hash) (dok : Path → Bool)
    (root : Path) (t : FSEntry) (doFix : Bool)
    (events : List ConsoleEvent) :
    (∀ er, files_on_directory root t = .error er →
       scan_on_directory h root t = .error er ∧
       main h dok root t doFix events = (1, some er)) ∧
    (∀ m, scan_on_directory h root t = .ok m →
       ∃ fs, files_on_directory root t = .ok fs ∧ m = indexFiles h [] fs) ∧
    ((main h dok root t doFix events).1 = 0 ↔
      ∃ r, run h dok root t doFix events = .ok r) := by
  refine ⟨?_, ?_, ?_⟩
  · intro er he
    have hscan : scan_on_directory h root t = .error er := by
      rw [scan_eq_files, he]
      rfl
    exact ⟨hscan, by simp [main, run, hscan]⟩
  · intro m hm
    have hsf := scan_eq_files h root t
    rw [hm] at hsf
    cases hf : files_on_directory root t with
    | error er =>
        rw [hf] at hsf
        exact absurd hsf (by simp [Except.map])
    | ok fs =>
        rw [hf] at hsf
        refine ⟨fs, rfl, ?_⟩
        simpa [Except.map] using hsf
  · cases hr : run h dok root t doFix events with
    | ok r => simp [main, hr]
    | error er => simp [main, hr]

/-- Witness for C3 on a tree with one unreadable file. -/
theorem C3_fail_fast_and_exit_witness :
    scan_on_directory sampleHash ["r"] badTree =
      .error (.fsErr ["r", "x"]) ∧
    main sampleHash (fun _ => true) ["r"] badTree false [] =
      (1, some (.fsErr ["r", "x"])) :=
  (C3_fail_fast_and_exit sampleHash (fun _ => true) ["r"] badTree false
    []).1 (Err.fsErr ["r", "x"]) rfl

/-- C4: at each prompt, a non-numeric line reports invalid input and
re-prompts, "0" terminates as Abstain, a value in `[1, n]` terminates as
`Keep (v - 1)`, a value above `n` reports invalid index and re-prompts,
and any number of invalid lines before a terminal one leaves the selection
unchanged. -/
theorem C4_prompt_protocol (n : Nat) (s : List Char)
    (rest events : List ConsoleEvent) :
    (parseUsize (trimChars s) = none →
       promptLoop n (.line s :: rest) =
         Except.map (fun ro =>
             (ro.1, OutLine.promptLine :: OutLine.invalidInput :: ro.2.1,
              ro.2.2))
           (promptLoop n rest)) ∧
    (parseUsize (trimChars s) = some 0 →
       promptLoop n (.line s :: rest) = .ok (none, [.promptLine], rest)) ∧
    (∀ v, parseUsize (trimChars s) = some v → 1 ≤ v → v ≤ n →
       promptLoop n (.line s :: rest) =
         .ok (some (v - 1), [.promptLine], rest)) ∧
    (∀ v, parseUsize (trimChars s) = some v → n < v →
       promptLoop n (.line s :: rest) =
         Except.map (fun ro =>
             (ro.1, OutLine.promptLine :: OutLine.invalidIndex :: ro.2.1,
              ro.2.2))
           (promptLoop n rest)) ∧
    (∀ junk : List (List Char),
       (∀ s' ∈ junk, parseUsize (trimChars s') = none) →
       Except.map (fun ro => ro.1)
           (promptLoop n (junk.map ConsoleEvent.line ++ events)) =
         Except.map (fun ro => ro.1) (promptLoop n events)) :=
  ⟨promptLoop_parse_fail n s rest,
   promptLoop_zero n s rest,
   fun v hp h1 hn => promptLoop_keep n s v rest hp h1 hn,
   fun v hp hn => promptLoop_out_of_range n s v rest hp hn,
   fun junk hj => promptLoop_junk n junk events hj⟩

/-- Witness for C4: "x" is invalid input, "0" abstains, "2" keeps index 1,
"5" is an invalid index for a two-path set. -/
theorem C4_prompt_protocol_witness :
    promptLoop 2 [ConsoleEvent.line ['x'], ConsoleEvent.line ['0']] =
      Except.map (fun ro =>
          (ro.1, OutLine.promptLine :: OutLine.invalidInput :: ro.2.1,
           ro.2.2))
        (promptLoop 2 [ConsoleEvent.line ['0']]) ∧
    promptLoop 2 [ConsoleEvent.line ['0']] =
      .ok (none, [.promptLine], []) ∧
    promptLoop 2 [ConsoleEvent.line ['2']] =
      .ok (some 1, [.promptLine], []) ∧
    promptLoop 2 [ConsoleEvent.line ['5'], ConsoleEvent.line ['1']] =
      Except.map (fun ro =>
          (ro.1, OutLine.promptLine :: OutLine.invalidIndex :: ro.2.1,
           ro.2.2))
        (promptLoop 2 [ConsoleEvent.line ['1']]) :=
  ⟨(C4_prompt_protocol 2 ['x'] [ConsoleEvent.line ['0']] []).1 rfl,
   (C4_prompt_protocol 2 ['0'] [] []).2.1 rfl,
   (C4_prompt_protocol 2 ['2'] [] []).2.2.1 2 rfl (by decide) (by decide),
   (C4_prompt_protocol 2 ['5'] [ConsoleEvent.line ['1']] []).2.2.2.1 5 rfl
     (by decide)⟩

/-- C5: a directory entry that is a directory is recursed into, a regular
file is hashed and indexed, and an entry of any other kind is silently
skipped: removing it from the listing changes nothing. -/
theorem C5_entry_kinds (h : Bytes → Hash) :
    (∀ es1 es2 name p m,
       scanRec h (es1 ++ (name, FSEntry.other) :: es2) p m =
         scanRec h (es1 ++ es2) p m) ∧
    (∀ es q m, scanOne h (.dir (some es)) q m = scanRec h es q m) ∧
    (∀ c q m,
       scanOne h (.file (some c)) q m = .ok (indexStep h m (q, c))) := by
  refine ⟨?_, ?_, ?_⟩
  · intro es1 es2 name p m
    induction es1 generalizing m with
    | nil => simp [scanRec, scanOne]
    | cons ne rest ih =>
        obtain ⟨nm, e⟩ := ne
        simp only [List.cons_append, scanRec]
        cases hso : scanOne h e (p ++ [nm]) m with
        | error er => simp [hso]
        | ok m' => simp [hso, ih m']
  · intro es q m
    simp [scanOne]
  · intro c q m
    rw [scanOne_eq_filesOne]
    simp [filesOne, Except.map, indexFiles]

/-- Witness for C5: dropping an `other` entry from a concrete listing does
not change the scan, and a file entry is indexed. -/
theorem C5_entry_kinds_witness :
    scanRec sampleHash [("a", FSEntry.file (some [104, 105])),
        ("z", FSEntry.other), ("c", FSEntry.file (some [119]))] ["r"] [] =
      scanRec sampleHash [("a", FSEntry.file (some [104, 105])),
        ("c", FSEntry.file (some [119]))] ["r"] [] ∧
    scanOne sampleHash (.file (some [119])) ["r", "c"] [] =
      .ok (indexStep sampleHash [] (["r", "c"], [119])) :=
  ⟨(C5_entry_kinds sampleHash).1 [("a", FSEntry.file (some [104, 105]))]
      [("c", FSEntry.file (some [119]))] "z" ["r"] [],
   (C5_entry_kinds sampleHash).2.2 [119] ["r", "c"] []⟩

/-- C6: a failed deletion does not change which paths get deletion
attempts, every failure is reported, deletion failures never make the
set's resolution fail (only console errors do), and after a resolved set
the remaining sets are still processed. -/
theorem C6_deletion_isolated (dok : Path → Bool) (v : FileInfo) (k : Hash)
    (sets : List (Hash × FileInfo)) (events : List ConsoleEvent)
    (paths : List Path) (keep : Nat) (fr : RunOut) :
    ((deleteFrom dok paths keep 0).attempts =
       (deleteFrom (fun _ => true) paths keep 0).attempts) ∧
    ((deleteFrom dok paths keep 0).errs =
       (deleteFrom dok paths keep 0).attempts.filter (fun p => !dok p)) ∧
    (∀ er, fix_duplicates dok v events = .error er ↔
       promptLoop v.paths.length events = .error er) ∧
    (1 < v.paths.length → fix_duplicates dok v events = .ok fr →
       processSets dok true ((k, v) :: sets) events =
         Except.map (fun r => RunOut.mk
             (reportRecord k v ++ fr.out ++ r.out) (fr.errs ++ r.errs)
             (fr.attempts ++ r.attempts) r.events)
           (processSets dok true sets fr.events)) := by
  refine ⟨?_, deleteFrom_errs dok paths keep 0, ?_, ?_⟩
  · rw [deleteFrom_attempts, deleteFrom_attempts]
  · intro er
    constructor
    · intro hfix
      cases hpl : promptLoop v.paths.length events with
      | error er2 =>
          simp only [fix_duplicates, hpl, Except.error.injEq] at hfix
          rw [hfix]
      | ok ro =>
          obtain ⟨sel, out, rest⟩ := ro
          cases sel <;> simp [fix_duplicates, hpl] at hfix
    · intro hpl
      simp [fix_duplicates, hpl]
  · intro hlen hfix
    cases hps : processSets dok true sets fr.events with
    | error er => simp [processSets, hlen, hfix, hps, Except.map]
    | ok r => simp [processSets, hlen, hfix, hps, Except.map]

/-- Witness for C6: with every deletion failing, the attempts are the same
as when all succeed, and processing continues past the resolved set. -/
theorem C6_deletion_isolated_witness :
    ((deleteFrom (fun _ => false) [["r", "a"], ["r", "b"], ["r", "c"]] 1
        0).attempts =
       (deleteFrom (fun _ => true) [["r", "a"], ["r", "b"], ["r", "c"]] 1
        0).attempts) ∧
    processSets (fun _ => false) true [(⟨[104, 105]⟩, sampleInfo)]
        [ConsoleEvent.line ['1']] =
      Except.map (fun r => RunOut.mk
          (reportRecord ⟨[104, 105]⟩ sampleInfo ++
             [OutLine.promptLine, OutLine.deleting ["r", "b"]] ++ r.out)
          ([["r", "b"]] ++ r.errs) ([["r", "b"]] ++ r.attempts) r.events)
        (processSets (fun _ => false) true [] []) :=
  ⟨(C6_deletion_isolated (fun _ => false) sampleInfo ⟨[104, 105]⟩ [] []
      [["r", "a"], ["r", "b"], ["r", "c"]] 1 ⟨[], [], [], []⟩).1,
   (C6_deletion_isolated (fun _ => false) sampleInfo ⟨[104, 105]⟩ []
      [ConsoleEvent.line ['1']] [] 0
      ⟨[OutLine.promptLine, OutLine.deleting ["r", "b"]], [["r", "b"]],
       [["r", "b"]], []⟩).2.2.2 (by decide) rfl⟩

/-- C7: hashing a file whose digest is absent creates a record with
exactly that path and size; a present digest gets the path appended with
the size and all other keys untouched; and across any whole scan step a
record's path list only ever grows, its size unchanged. -/
theorem C7_record_update (h : Bytes → Hash) :
    (∀ m p (c : Bytes), lookupFM m (h c) = none →
       scanOne h (.file (some c)) p m =
         .ok (insertFM m (h c) (FileInfo.new p c.length)) ∧
       lookupFM (insertFM m (h c) (FileInfo.new p c.length)) (h c) =
         some ⟨[p], c.length⟩) ∧
    (∀ m p (c : Bytes) fi, lookupFM m (h c) = some fi →
       ∃ m', scanOne h (.file (some c)) p m = .ok m' ∧
         lookupFM m' (h c) = some ⟨fi.paths ++ [p], fi.size⟩ ∧
         ∀ k, k ≠ h c → lookupFM m' k = lookupFM m k) ∧
    (∀ e q m m', scanOne h e q m = .ok m' →
       ∀ k fi, lookupFM m k = some fi →
         ∃ more, lookupFM m' k = some ⟨fi.paths ++ more, fi.size⟩) := by
  refine ⟨?_, ?_, ?_⟩
  · intro m p c hnone
    have hcont : ¬containsKeyFM m (h c) = true := by
      intro hc
      obtain ⟨fi, hfi⟩ := (containsKeyFM_iff m (h c)).mp hc
      rw [hnone] at hfi
      exact Option.noConfusion hfi
    constructor
    · simp [scanOne, hash_file, hcont]
    · rw [insertFM, lookupFM_append, hnone]
      simp [lookupFM, FileInfo.new]
  · intro m p c fi hfi
    have hcont : containsKeyFM m (h c) = true :=
      (containsKeyFM_iff m (h c)).mpr ⟨fi, hfi⟩
    refine ⟨updateFM m (h c) (fun fi => fi.add_path p), ?_, ?_, ?_⟩
    · simp [scanOne, hash_file, hcont, hfi]
    · rw [lookupFM_updateFM, if_pos rfl, hfi]
      simp [FileInfo.add_path]
    · intro k hk
      rw [lookupFM_updateFM, if_neg (fun he => hk he.symm)]
  · intro e q m m' hso k fi hfi
    rw [scanOne_eq_filesOne] at hso
    cases hf : filesOne e q with
    | error er => rw [hf] at hso; exact absurd hso (by simp [Except.map])
    | ok fs =>
        rw [hf] at hso
        simp only [Except.map, Except.ok.injEq] at hso
        exact hso ▸ lookupFM_indexFiles_mono h fs m k fi hfi

/-- Witness for C7: a fresh digest creates a one-path record; a recurring
digest appends. -/
theorem C7_record_update_witness :
    (scanOne sampleHash (.file (some [119])) ["r", "c"] [] =
       .ok (insertFM [] (sampleHash [119]) (FileInfo.new ["r", "c"] 1)) ∧
     lookupFM (insertFM [] (sampleHash [119]) (FileInfo.new ["r", "c"] 1))
         (sampleHash [119]) = some ⟨[["r", "c"]], 1⟩) ∧
    (∃ m', scanOne sampleHash (.file (some [104, 105])) ["r", "b"]
         [(⟨[104, 105]⟩, ⟨[["r", "a"]], 2⟩)] = .ok m' ∧
       lookupFM m' (sampleHash [104, 105]) =
         some ⟨[["r", "a"]] ++ [["r", "b"]], 2⟩ ∧
       ∀ k, k ≠ sampleHash [104, 105] →
         lookupFM m' k = lookupFM [(⟨[104, 105]⟩, ⟨[["r", "a"]], 2⟩)] k) :=
  ⟨(C7_record_update sampleHash).1 [] ["r", "c"] [119] rfl,
   (C7_record_update sampleHash).2.1 [(⟨[104, 105]⟩, ⟨[["r", "a"]], 2⟩)]
     ["r", "b"] [104, 105] ⟨[["r", "a"]], 2⟩ rfl⟩

/-- C8: in report mode the output is exactly one block per FileRecord with
more than one path; each block is the digest, the shared size and the
paths numbered from 1 in insertion order; a 32-byte digest prints as 64
lowercase hexadecimal characters. -/
theorem C8_report_format (dok : Path → Bool) (m : FileMap)
    (events : List ConsoleEvent) (k : Hash) (ps : List Path) :
    (handle_duplicates dok m false events =
       .ok ⟨((m.filter (fun kv => 1 < kv.2.paths.length)).map
               (fun kv => reportRecord kv.1 kv.2)).flatten, [], [],
            events⟩) ∧
    (k.hash.length = 32 → (hashHex k).length = 64) ∧
    ((∀ b ∈ k.hash, b < 256) → ∀ ch ∈ hashHex k, ch ∈ lowHexChars) ∧
    ((enumPaths 0 ps).length = ps.length) ∧
    (∀ j (hj : j < ps.length) (hj' : j < (enumPaths 0 ps).length),
       (enumPaths 0 ps).get ⟨j, hj'⟩ =
         .pathLine (j + 1) (ps.get ⟨j, hj⟩)) := by
  refine ⟨?_, hashHex_length k, hashHex_mem k, enumPaths_length 0 ps, ?_⟩
  · have haux : ∀ (sets : List (Hash × FileInfo))
        (evs : List ConsoleEvent),
        processSets dok false sets evs =
          .ok ⟨((sets.filter (fun kv => 1 < kv.2.paths.length)).map
                  (fun kv => reportRecord kv.1 kv.2)).flatten, [], [],
               evs⟩ := by
      intro sets evs
      induction sets with
      | nil => simp [processSets]
      | cons kv rest ih =>
          obtain ⟨k', v'⟩ := kv
          by_cases hv : v'.paths.length > 1
          · simp [processSets, hv, ih, List.filter_cons]
          · simp [processSets, hv, ih, List.filter_cons]
    exact haux m events
  · intro j hj hj'
    have hg := enumPaths_get ps 0 j hj hj'
    simpa using hg

/-- Witness for C8 on the sample map and a concrete 32-byte digest. -/
theorem C8_report_format_witness :
    handle_duplicates (fun _ => true) sampleMap false [] =
      .ok ⟨((sampleMap.filter (fun kv => 1 < kv.2.paths.length)).map
              (fun kv => reportRecord kv.1 kv.2)).flatten, [], [], []⟩ ∧
    (hashHex sampleDigest).length = 64 ∧
    (∀ ch ∈ hashHex sampleDigest, ch ∈ lowHexChars) :=
  ⟨(C8_report_format (fun _ => true) sampleMap [] sampleDigest []).1,
   (C8_report_format (fun _ => true) sampleMap [] sampleDigest []).2.1
     (by decide),
   (C8_report_format (fun _ => true) sampleMap [] sampleDigest []).2.2.1
     (by decide)⟩

/-- C9: the `unwrap` after `contains_key` in `scan_rec` never panics: a
scan never produces the panic outcome, whatever the tree. -/
theorem C9_no_unwrap_panic (h : Bytes → Hash) (root : Path) (t : FSEntry) :
    scan_on_directory h root t ≠ .error .panicked := by
  intro hcontra
  rw [scan_eq_files] at hcontra
  cases hf : files_on_directory root t with
  | ok fs =>
      rw [hf] at hcontra
      exact absurd hcontra (by simp [Except.map])
  | error er =>
      rw [hf] at hcontra
      simp only [Except.map, Except.error.injEq] at hcontra
      obtain ⟨q, hq⟩ := files_on_directory_error_fsErr root t er hf
      rw [hcontra] at hq
      exact Err.noConfusion hq

/-- Witness for C9 on `sampleTree`. -/
theorem C9_no_unwrap_panic_witness :
    scan_on_directory sampleHash ["r"] sampleTree ≠ .error .panicked :=
  C9_no_unwrap_panic sampleHash ["r"] sampleTree

/-- C10: a stdout flush error or stdin read error at the prompt is a
console error that propagates out of the prompt loop, out of
`fix_duplicates`, aborts the processing of the current and remaining
duplicate sets, and makes main exit 1. -/
theorem C10_console_error_aborts (h : Bytes → Hash) (dok : Path → Bool)
    (root : Path) (t : FSEntry) (v : FileInfo) (k : Hash)
    (sets : List (Hash × FileInfo)) (n : Nat)
    (events rest : List ConsoleEvent) :
    (promptLoop n (.flushErr :: rest) = .error .consoleErr ∧
     promptLoop n (.readErr :: rest) = .error .consoleErr) ∧
    (∀ er, promptLoop v.paths.length events = .error er →
       fix_duplicates dok v events = .error er) ∧
    (∀ er, 1 < v.paths.length →
       fix_duplicates dok v events = .error er →
       processSets dok true ((k, v) :: sets) events = .error er) ∧
    (∀ er, run h dok root t true events = .error er →
       main h dok root t true events = (1, some er)) := by
  refine ⟨⟨rfl, rfl⟩, ?_, ?_, ?_⟩
  · intro er he
    simp [fix_duplicates, he]
  · intro er hlen he
    simp [processSets, hlen, he]
  · intro er he
    simp [main, he]

/-- Witness for C10: a flush error and a read error abort fix mode. -/
theorem C10_console_error_aborts_witness :
    fix_duplicates (fun _ => true) sampleInfo [ConsoleEvent.flushErr] =
      .error .consoleErr ∧
    processSets (fun _ => true) true [(⟨[104, 105]⟩, sampleInfo)]
        [ConsoleEvent.readErr] = .error .consoleErr :=
  ⟨(C10_console_error_aborts sampleHash (fun _ => true) ["r"] sampleTree
      sampleInfo ⟨[104, 105]⟩ [] 0 [ConsoleEvent.flushErr] []).2.1
      Err.consoleErr rfl,
   (C10_console_error_aborts sampleHash (fun _ => true) ["r"] sampleTree
      sampleInfo ⟨[104, 105]⟩ [] 0 [ConsoleEvent.readErr] []).2.2.1
      Err.consoleErr (by decide) rfl⟩

end FDC
